import Mathlib

/-!
Verification of the Maestro Studio REPL command-queue engine
(`src/maestro-studio/web/src/context/ReplContext.tsx`).

The embedding translates the pure core of each function of the source file:
React's `setRepl(prev => ...)` updaters become functions `Repl → Repl`, the
`async` control flow becomes explicit state passing over `St`, a thrown JS
exception becomes an `Option`/`Except` failure, and the external collaborators
(the YAML library, the `uuidv4` generator and the execution API) become
parameters, since their code is not part of this repository.
-/

namespace Maestro

/-- Status of a REPL command (`ReplCommandStatus` from `helpers/models`, whose
values `'pending' | 'running' | 'success' | 'error' | 'canceled'` are the ones
`ReplContext.tsx` assigns). -/
inductive ReplCommandStatus where
  | pending
  | running
  | success
  | error
  | canceled
deriving DecidableEq, Repr

/-- A REPL command (`ReplCommand` from `helpers/models`, with exactly the
fields `ReplContext.tsx` reads and writes: `id`, `status`, `yaml`). -/
structure ReplCommand where
  id : String
  status : ReplCommandStatus
  yaml : String
deriving DecidableEq, Repr

/-- The REPL state (`Repl` from `helpers/models`): the ordered command queue. -/
structure Repl where
  commands : List ReplCommand
deriving DecidableEq, Repr

/-- `initialState` (line 7): the empty queue. -/
def initialState : Repl := { commands := [] }

/-- `setCommandStatus` (lines 57–65): the pure core of its `setRepl` updater. -/
def setCommandStatus (id : String) (commandStatus : ReplCommandStatus) (repl : Repl) : Repl :=
  { repl with
    commands := repl.commands.map fun command =>
      if command.id = id then { command with status := commandStatus } else command }

/-- `deleteCommands` (lines 67–75): drop every command whose id is listed. -/
def deleteCommands (ids : List String) (repl : Repl) : Repl :=
  { repl with commands := repl.commands.filter fun command => !(ids.contains command.id) }

/-- JS `Map.prototype.set` on the association list that models the `Map` built
in `reorderCommands`: overwrite when the key is present, append otherwise, so
on duplicate ids the later `set` wins. -/
def mapSet (m : List (String × ReplCommand)) (k : String) (v : ReplCommand) :
    List (String × ReplCommand) :=
  if m.any (fun p => p.1 = k) then m.map (fun p => if p.1 = k then (k, v) else p)
  else m ++ [(k, v)]

/-- JS `Map.prototype.get`: the value stored at `k`, if any. -/
def mapGet (m : List (String × ReplCommand)) (k : String) : Option ReplCommand :=
  (m.find? (fun p => p.1 = k)).map (·.2)

/-- `reorderCommands` (lines 77–95): build an id → command map, push the
commands named by `ids` in the given order (missing ids skipped), then append
every command not named in `ids` in queue order. -/
def reorderCommands (ids : List String) (repl : Repl) : Repl :=
  let commandMap := repl.commands.foldl (fun acc command => mapSet acc command.id command) []
  { repl with
    commands :=
      ids.filterMap (fun id => mapGet commandMap id) ++
      repl.commands.filter (fun command => !(ids.contains command.id)) }

/-- Structured values of the external YAML library (`YAML.parse` output and
`YAML.stringify` input). Absent (`undefined`) object fields are modelled by
`null`. -/
inductive Yaml where
  | null
  | str (s : String)
  | arr (elems : List Yaml)
  | obj (fields : List (String × Yaml))

/-- The external YAML library, abstract: `parse` is `none` where the JS
library's `YAML.parse` would throw. -/
structure YamlLib where
  parse : String → Option Yaml
  stringify : Yaml → String

/-- The per-command construction inside `parseCommands` (lines 148–152):
one fresh `uuidv4()` call per command, modelled by the supply `uuid` applied to
the threaded call counter; status starts `pending`. -/
def buildPending (uuid : Nat → String) (ctr : Nat) : List String → List ReplCommand × Nat
  | [] => ([], ctr)
  | y :: ys =>
    let rest := buildPending uuid (ctr + 1) ys
    ({ id := uuid ctr, status := .pending, yaml := y } :: rest.1, rest.2)

/-- The `yamls` step of `parseCommands` (line 147): `Array.isArray(parsed) ?
parsed.map(o => YAML.stringify(o)) : [YAML.stringify(parsed)]`. -/
def docYamls (lib : YamlLib) : Yaml → List String
  | .arr elems => elems.map lib.stringify
  | v => [lib.stringify v]

/-- `parseCommands` (lines 145–153): parse the blob; when the root is an array
each element is re-stringified into its own command, otherwise the whole value
becomes one command. `none` models `YAML.parse` throwing. -/
def parseCommands (lib : YamlLib) (uuid : Nat → String) (ctr : Nat) (yaml : String) :
    Option (List ReplCommand × Nat) :=
  match lib.parse yaml with
  | none => none
  | some parsed => some (buildPending uuid ctr (docYamls lib parsed))

/-! ### Helper lemmas -/

theorem buildPending_yamls (uuid : Nat → String) :
    ∀ (ys : List String) (ctr : Nat), ((buildPending uuid ctr ys).1.map (·.yaml)) = ys := by
  intro ys
  induction ys with
  | nil => intro ctr; rfl
  | cons y ys ih => intro ctr; simp [buildPending, ih]

theorem buildPending_status (uuid : Nat → String) :
    ∀ (ys : List String) (ctr : Nat) (c : ReplCommand),
      c ∈ (buildPending uuid ctr ys).1 → c.status = .pending := by
  intro ys
  induction ys with
  | nil => intro ctr c h; simp [buildPending] at h
  | cons y ys ih =>
    intro ctr c h
    simp only [buildPending, List.mem_cons] at h
    rcases h with h | h
    · simp [h]
    · exact ih (ctr + 1) c h

theorem buildPending_ids (uuid : Nat → String) :
    ∀ (ys : List String) (ctr : Nat),
      ((buildPending uuid ctr ys).1.map (·.id)) =
        (List.range ys.length).map (fun i => uuid (ctr + i)) := by
  intro ys
  induction ys with
  | nil => intro ctr; rfl
  | cons y ys ih =>
    intro ctr
    simp only [buildPending, List.map_cons, List.length_cons, List.range_succ_eq_map,
      List.map_map, ih (ctr + 1)]
    congr 1
    apply List.map_congr_left
    intro a _
    show uuid (ctr + 1 + a) = uuid (ctr + (a + 1))
    exact congrArg uuid (by omega)

theorem buildPending_ctr (uuid : Nat → String) :
    ∀ (ys : List String) (ctr : Nat), (buildPending uuid ctr ys).2 = ctr + ys.length := by
  intro ys
  induction ys with
  | nil => intro ctr; simp [buildPending]
  | cons y ys ih => intro ctr; simp [buildPending, ih (ctr + 1)]; omega

theorem buildPending_length (uuid : Nat → String) (ys : List String) (ctr : Nat) :
    (buildPending uuid ctr ys).1.length = ys.length := by
  have := congrArg List.length (buildPending_yamls uuid ys ctr)
  simpa using this

theorem filterMap_ext {α β : Type} {f g : α → Option β} (l : List α)
    (h : ∀ a ∈ l, f a = g a) : l.filterMap f = l.filterMap g := by
  induction l with
  | nil => rfl
  | cons a l ih =>
    simp only [List.filterMap_cons, h a (by simp)]
    rw [ih fun x hx => h x (by simp [hx])]

theorem filterMap_eq_self {l : List ReplCommand} {g : ReplCommand → Option ReplCommand}
    (h : ∀ c ∈ l, g c = some c) : l.filterMap g = l := by
  induction l with
  | nil => rfl
  | cons c cs ih =>
    simp only [List.filterMap_cons, h c (by simp)]
    rw [ih fun x hx => h x (by simp [hx])]

theorem foldl_mapSet_eq (cs : List ReplCommand) (acc : List (String × ReplCommand))
    (hacc : ∀ c ∈ cs, ∀ p ∈ acc, p.1 ≠ c.id)
    (hnodup : (cs.map (·.id)).Nodup) :
    cs.foldl (fun m c => mapSet m c.id c) acc = acc ++ cs.map (fun c => (c.id, c)) := by
  induction cs generalizing acc with
  | nil => simp
  | cons c cs ih =>
    simp only [List.map_cons, List.nodup_cons] at hnodup
    have hset : mapSet acc c.id c = acc ++ [(c.id, c)] := by
      have hany : acc.any (fun p => p.1 = c.id) = false := by
        rw [List.any_eq_false]
        intro p hp
        simpa using hacc c (by simp) p hp
      simp [mapSet, hany]
    simp only [List.foldl_cons, hset]
    rw [ih (acc ++ [(c.id, c)]) ?_ hnodup.2]
    · simp
    · intro c' hc' p hp
      rcases List.mem_append.mp hp with hmem | hmem
      · exact hacc c' (by simp [hc']) p hmem
      · simp only [List.mem_singleton] at hmem
        subst hmem
        intro hEq
        apply hnodup.1
        have hid : c.id = c'.id := hEq
        rw [hid]
        exact List.mem_map_of_mem (·.id) hc'

theorem mapGet_pairs (cs : List ReplCommand) (k : String) :
    mapGet (cs.map (fun c => (c.id, c))) k = cs.find? (fun c => c.id = k) := by
  induction cs with
  | nil => rfl
  | cons c cs ih =>
    by_cases h : c.id = k
    · simp only [List.map_cons, mapGet]
      rw [List.find?_cons_of_pos _ (by simp [h]), List.find?_cons_of_pos _ (by simp [h])]
      rfl
    · simp only [List.map_cons]
      rw [show mapGet ((c.id, c) :: cs.map (fun c => (c.id, c))) k =
            mapGet (cs.map (fun c => (c.id, c))) k from ?_,
        List.find?_cons_of_neg _ (by simp [h])]
      · exact ih
      · simp only [mapGet]
        rw [List.find?_cons_of_neg _ (by simp [h])]

theorem mapGet_foldl (cs : List ReplCommand) (hnodup : (cs.map (·.id)).Nodup) (k : String) :
    mapGet (cs.foldl (fun m c => mapSet m c.id c) []) k = cs.find? (fun c => c.id = k) := by
  rw [foldl_mapSet_eq cs [] (by simp) hnodup, List.nil_append]
  exact mapGet_pairs cs k

theorem find?_self_of_nodup (cs : List ReplCommand) (hnodup : (cs.map (·.id)).Nodup) :
    ∀ c ∈ cs, cs.find? (fun x => x.id = c.id) = some c := by
  induction cs with
  | nil => intro c h; simp at h
  | cons a cs ih =>
    simp only [List.map_cons, List.nodup_cons] at hnodup
    intro c hc
    rcases List.mem_cons.mp hc with rfl | hc
    · rw [List.find?_cons_of_pos _ (by simp)]
    · have hne : a.id ≠ c.id := by
        intro hEq
        exact hnodup.1 (hEq ▸ List.mem_map_of_mem (·.id) hc)
      rw [List.find?_cons_of_neg _ (by simp [hne])]
      exact ih hnodup.2 c hc

/-! ### The reorder contract -/

/-- The reorder contract as §4.4 of the spec states it: the commands named by
`ids`, in the given order, each resolved against the queue (ids absent from the
queue silently skipped), followed by every command not named in `ids`, in its
original relative order and unchanged. Stated apart from `reorderCommands` so
the implementation can be proved to refine it. -/
def reorderSpec (ids : List String) (repl : Repl) : Repl :=
  { repl with
    commands :=
      ids.filterMap (fun id => repl.commands.find? (fun c => c.id = id)) ++
      repl.commands.filter (fun c => !(ids.contains c.id)) }

/-- C7: for a queue whose ids are unique, `reorderCommands ids` rebuilds the
queue as: the commands named in `ids` in the given order (unknown ids silently
skipped), followed by all commands not named in `ids`, unchanged and in their
original relative order; and reordering with the full current id sequence
leaves the queue equal to what it was. -/
theorem reorderCommands_correct (ids : List String) (repl : Repl)
    (hnodup : (repl.commands.map (·.id)).Nodup) :
    reorderCommands ids repl = reorderSpec ids repl ∧
    reorderCommands (repl.commands.map (·.id)) repl = repl := by
  have hmain : ∀ ids' : List String, reorderCommands ids' repl = reorderSpec ids' repl := by
    intro ids'
    obtain ⟨cs⟩ := repl
    simp only [reorderCommands, reorderSpec]
    congr 1
    congr 1
    exact filterMap_ext ids' fun i _ => mapGet_foldl cs hnodup i
  refine ⟨hmain ids, ?_⟩
  rw [hmain (repl.commands.map (·.id))]
  obtain ⟨cs⟩ := repl
  simp only [reorderSpec]
  congr 1
  have hpick :
      (cs.map (·.id)).filterMap (fun id => cs.find? (fun c => c.id = id)) = cs := by
    rw [List.filterMap_map]
    exact filterMap_eq_self fun c hc => find?_self_of_nodup cs hnodup c hc
  have hrest : cs.filter (fun c => !((cs.map (·.id)).contains c.id)) = [] := by
    rw [List.filter_eq_nil_iff]
    intro c hc
    have hmem : c.id ∈ cs.map (·.id) := List.mem_map_of_mem (·.id) hc
    simp [hmem]
  rw [hpick, hrest, List.append_nil]

/-- C7 witness at a concrete queue. -/
theorem reorderCommands_correct_witness :
    reorderCommands ["b", "a"] (Repl.mk [⟨"a", .pending, "ya"⟩, ⟨"b", .pending, "yb"⟩,
        ⟨"c", .pending, "yc"⟩]) =
      reorderSpec ["b", "a"] (Repl.mk [⟨"a", .pending, "ya"⟩, ⟨"b", .pending, "yb"⟩,
        ⟨"c", .pending, "yc"⟩]) ∧
    reorderCommands ((Repl.mk [⟨"a", .pending, "ya"⟩, ⟨"b", .pending, "yb"⟩,
        ⟨"c", .pending, "yc"⟩]).commands.map (·.id))
      (Repl.mk [⟨"a", .pending, "ya"⟩, ⟨"b", .pending, "yb"⟩, ⟨"c", .pending, "yc"⟩]) =
      Repl.mk [⟨"a", .pending, "ya"⟩, ⟨"b", .pending, "yb"⟩, ⟨"c", .pending, "yc"⟩] :=
  reorderCommands_correct ["b", "a"] _ (by decide)

/-- C10: `setCommandStatus id s` is a frame-respecting update: the queue keeps
its length, every position keeps its command's `id` and `yaml`, a position
whose id differs from `id` is entirely unchanged, a position whose id equals
`id` gets status `s` and nothing else, and when no command carries `id` the
queue is unchanged. -/
theorem setCommandStatus_frame (id : String) (s : ReplCommandStatus) (repl : Repl) :
    (setCommandStatus id s repl).commands.length = repl.commands.length ∧
    (setCommandStatus id s repl).commands.map (·.id) = repl.commands.map (·.id) ∧
    (setCommandStatus id s repl).commands.map (·.yaml) = repl.commands.map (·.yaml) ∧
    (∀ (j : Nat) (c c' : ReplCommand), repl.commands[j]? = some c →
      (setCommandStatus id s repl).commands[j]? = some c' →
      c'.id = c.id ∧ c'.yaml = c.yaml ∧ (c.id ≠ id → c' = c) ∧
        (c.id = id → c' = { c with status := s })) ∧
    ((∀ c ∈ repl.commands, c.id ≠ id) → setCommandStatus id s repl = repl) := by
  refine ⟨by simp [setCommandStatus], ?_, ?_, ?_, ?_⟩
  · simp only [setCommandStatus, List.map_map]
    apply List.map_congr_left
    intro c _
    by_cases h : c.id = id <;> simp [h]
  · simp only [setCommandStatus, List.map_map]
    apply List.map_congr_left
    intro c _
    by_cases h : c.id = id <;> simp [h]
  · intro j c c' hc hc'
    have hfc : (if c.id = id then { c with status := s } else c) = c' := by
      simp only [setCommandStatus, List.getElem?_map, hc] at hc'
      simpa using hc'
    subst hfc
    by_cases h : c.id = id <;> simp [h]
  · intro habs
    obtain ⟨cs⟩ := repl
    simp only [setCommandStatus]
    congr 1
    conv_rhs => rw [← List.map_id cs]
    apply List.map_congr_left
    intro c hc
    simp [habs c hc]

/-- C8: for input text that decodes to a structured value `v`, `parseCommands`
yields one command per element when `v` is a list (each element re-stringified
individually) and exactly one command otherwise, output order matching document
order (`docYamls`); every produced command starts with status `pending` and an
id from a fresh, consecutive `uuidv4` call — so for an injective uuid supply
the produced ids are pairwise distinct. -/
theorem parseCommands_correct (lib : YamlLib) (uuid : Nat → String) (ctr : Nat)
    (text : String) (v : Yaml) (hparse : lib.parse text = some v) :
    ∃ cs : List ReplCommand,
      parseCommands lib uuid ctr text = some (cs, ctr + cs.length) ∧
      cs.map (·.yaml) = docYamls lib v ∧
      (∀ elems, v = .arr elems → cs.length = elems.length) ∧
      ((∀ elems, v ≠ .arr elems) → cs.length = 1) ∧
      (∀ c ∈ cs, c.status = .pending) ∧
      cs.map (·.id) = (List.range cs.length).map (fun i => uuid (ctr + i)) ∧
      (Function.Injective uuid → (cs.map (·.id)).Nodup) := by
  refine ⟨(buildPending uuid ctr (docYamls lib v)).1, ?_, ?_, ?_, ?_, ?_, ?_, ?_⟩
  · simp only [parseCommands, hparse]
    rw [buildPending_length, ← buildPending_ctr uuid (docYamls lib v) ctr]
  · exact buildPending_yamls uuid (docYamls lib v) ctr
  · intro elems hv
    subst hv
    simp [buildPending_length, docYamls]
  · intro hne
    rw [buildPending_length]
    cases v with
    | null => rfl
    | str s => rfl
    | arr elems => exact absurd rfl (hne elems)
    | obj fields => rfl
  · exact buildPending_status uuid (docYamls lib v) ctr
  · rw [buildPending_ids, buildPending_length]
  · intro hinj
    rw [buildPending_ids]
    refine List.Nodup.map ?_ (List.nodup_range _)
    intro a b hab
    have := hinj hab
    omega

/-! ### The execution client, hook state, and run protocol -/

/-- The `env` object of one capture record (`item.runScript?.env`), duck-typed:
every field may be absent. -/
structure CaptureEnv where
  mode : Option String
  api : Option String
  behavior : Option String
deriving DecidableEq, Repr

/-- The `runScript` object of one capture record (`item.runScript`). -/
structure CaptureScript where
  file : Option String
  env : Option CaptureEnv
deriving DecidableEq, Repr

/-- One record of the mock-capture response (an element of `parsedResults` in
`runGetMocks`). -/
structure CaptureItem where
  runScript : Option CaptureScript
deriving DecidableEq, Repr

/-- The external execution API (`API` from `api/api.ts`), as an oracle:
`run yaml` and `dryRun yaml` are the outcomes of `API.runCommand(yaml, dryRun)`
(`Except.error msg` = rejected promise carrying `e.message`), and `mockRaw` is
the `JSON.parse` outcome of the `API.getMock()` payload — `Except.error` when
that payload is not a well-formed JSON array (`JSON.parse` throws, or the
parsed value fails `Array.isArray`), otherwise the list of capture records. -/
structure Api where
  run : String → Except String Unit
  dryRun : String → Except String Unit
  mockRaw : Except Unit (List CaptureItem)

/-- The state the `useRepl` hook closes over: the `repl` React state, the
`errorMessage` state, the `uuidv4` call counter, the trace of real (non-dry)
dispatches to `API.runCommand`, and the number of `API.flushMock()` calls. -/
structure St where
  repl : Repl
  errorMessage : Option String
  ctr : Nat
  trace : List String
  flushes : Nat
deriving DecidableEq, Repr

/-- JS `x || d` on an optional string: `undefined` and `""` both fall back. -/
def jsOr (v : Option String) (d : String) : String :=
  match v with
  | some s => if s = "" then d else s
  | none => d

/-- An optional field as `YAML.stringify` sees it: absent = `undefined`. -/
def optYaml : Option String → Yaml
  | some s => .str s
  | none => .null

/-- The `mockResult` object built for one capture record (lines 190–202):
`file` falls back to `"script/reproxy.js"` through JS `||`, the `env` object
falls back to `{}`, and its `mode`/`api`/`behavior` fields are copied as-is. -/
def mockYaml (item : CaptureItem) : Yaml :=
  let env := (item.runScript.bind (fun rs => rs.env)).getD ⟨none, none, none⟩
  .obj [("runScript", .obj [
    ("file", .str (jsOr (item.runScript.bind (fun rs => rs.file)) "script/reproxy.js")),
    ("env", .obj [("mode", optYaml env.mode), ("api", optYaml env.api),
      ("behavior", optYaml env.behavior)])])]

/-- The `flatMap(parsed => parseCommands(parsed))` step (line 203), threading
the uuid counter; `none` models `YAML.parse` throwing on one of the pieces. -/
def parseAll (lib : YamlLib) (uuid : Nat → String) :
    Nat → List String → Option (List ReplCommand × Nat)
  | ctr, [] => some ([], ctr)
  | ctr, y :: ys =>
    match parseCommands lib uuid ctr y with
    | none => none
    | some (cs, ctr') =>
      match parseAll lib uuid ctr' ys with
      | none => none
      | some (rest, ctr'') => some (cs ++ rest, ctr'')

/-- `runGetMocks` (lines 173–206): a malformed capture payload is logged,
recorded as the user-visible message `"Error parsing API response"`, and
treated as zero captures; otherwise every record is stringified, fed back
through `parseCommands`, and each resulting command's status is overwritten to
`success`. The result is `none` when `YAML.parse` throws inside
`parseCommands` (the `try` block only guards the `JSON.parse` step, so that
throw escapes `runGetMocks`). -/
def runGetMocks (api : Api) (lib : YamlLib) (uuid : Nat → String) (st : St) :
    Option (List ReplCommand × St) :=
  match api.mockRaw with
  | .error _ => some ([], { st with errorMessage := some "Error parsing API response" })
  | .ok items =>
    match parseAll lib uuid st.ctr (items.map (fun item => lib.stringify (mockYaml item))) with
    | none => none
    | some (cs, ctr') =>
      some (cs.map (fun c => { c with status := .success }), { st with ctr := ctr' })

/-- JS `Array.prototype.splice(start, 0, x)`: insert `x` at `start`, counting
from the end when `start` is negative and clamping into range. -/
def jsSplice (l : List ReplCommand) (start : Int) (x : ReplCommand) : List ReplCommand :=
  let n : Int := l.length
  let k : Nat := (if start < 0 then max (n + start) 0 else min start n).toNat
  l.take k ++ x :: l.drop k

/-- JS `Array.prototype.findIndex`: index of the first match, `-1` if none. -/
def jsFindIndex (l : List ReplCommand) (p : ReplCommand → Bool) : Int :=
  match l.findIdx? p with
  | some i => (i : Int)
  | none => -1

/-- The splice loop of `runCommand` (lines 106–117): the insertion cursor
starts at `findIndex(c => c.id === command.id)` and advances once per inserted
mock command. -/
def spliceMocks (cmds : List ReplCommand) (cmdId : String) (mocks : List ReplCommand) :
    List ReplCommand :=
  (mocks.foldl (fun (acc : List ReplCommand × Int) m => (jsSplice acc.1 acc.2 m, acc.2 + 1))
    (cmds, jsFindIndex cmds (fun c => c.id = cmdId))).1

/-- `runCommand` (lines 97–129): mark `running`, dispatch the command, then on
success either fetch-and-splice mock commands (mock generation enabled) or
flush captures (disabled) and mark `success`; any rejection — including a
throw escaping `runGetMocks` — lands in the `catch`, which marks `error`. -/
def runCommand (api : Api) (lib : YamlLib) (uuid : Nat → String) (mockEnabled : Bool)
    (command : ReplCommand) (st : St) : St × Bool :=
  let st1 : St := { st with repl := setCommandStatus command.id .running st.repl,
                            trace := st.trace ++ [command.yaml] }
  match api.run command.yaml with
  | .error _ => ({ st1 with repl := setCommandStatus command.id .error st1.repl }, false)
  | .ok _ =>
    if mockEnabled then
      match runGetMocks api lib uuid st1 with
      | none => ({ st1 with repl := setCommandStatus command.id .error st1.repl }, false)
      | some (mocks, st2) =>
        let st3 : St := { st2 with
          repl := { st2.repl with
            commands := spliceMocks st2.repl.commands command.id mocks } }
        ({ st3 with repl := setCommandStatus command.id .success st3.repl }, true)
    else
      let st2 : St := { st1 with flushes := st1.flushes + 1 }
      ({ st2 with repl := setCommandStatus command.id .success st2.repl }, true)

/-- The `for`/`abort` loop of `runCommands` (lines 133–141). -/
def runCommandsGo (api : Api) (lib : YamlLib) (uuid : Nat → String) (mockEnabled : Bool) :
    List ReplCommand → Bool → St → St × Bool
  | [], abort, st => (st, abort)
  | c :: rest, abort, st =>
    if abort then
      runCommandsGo api lib uuid mockEnabled rest true
        { st with repl := setCommandStatus c.id .canceled st.repl }
    else
      let r := runCommand api lib uuid mockEnabled c st
      runCommandsGo api lib uuid mockEnabled rest (!r.2) r.1

/-- `runCommands` (lines 131–143): mark the whole run-set `pending` up front,
then run it sequentially under the abort flag; returns `!abort`. -/
def runCommands (api : Api) (lib : YamlLib) (uuid : Nat → String) (mockEnabled : Bool)
    (commands : List ReplCommand) (st : St) : St × Bool :=
  let st0 : St :=
    { st with repl := commands.foldl (fun r c => setCommandStatus c.id .pending r) st.repl }
  let r := runCommandsGo api lib uuid mockEnabled commands false st0
  (r.1, !r.2)

/-- The dry-run loop of `runCommandYaml` (lines 157–165): the message of the
first candidate the dry run rejects, with the JS `e.message || 'Failed to run
command'` fallback; `none` when every candidate validates. -/
def dryRunFirstFailure (api : Api) : List ReplCommand → Option String
  | [] => none
  | c :: rest =>
    match api.dryRun c.yaml with
    | .error msg => some (if msg = "" then "Failed to run command" else msg)
    | .ok _ => dryRunFirstFailure api rest

/-- `runCommandYaml` — the `submit` operation (lines 155–171): parse the text,
dry-run every candidate in order, and on the first validation failure record
the message and return `false` without touching the queue; otherwise append
all candidates and run exactly them. `none` models `YAML.parse` throwing. -/
def runCommandYaml (api : Api) (lib : YamlLib) (uuid : Nat → String) (mockEnabled : Bool)
    (yaml : String) (st : St) : Option (St × Bool) :=
  match parseCommands lib uuid st.ctr yaml with
  | none => none
  | some (commands, ctr') =>
    let st1 : St := { st with ctr := ctr' }
    match dryRunFirstFailure api commands with
    | some msg => some ({ st1 with errorMessage := some msg }, false)
    | none =>
      let st2 : St := { st1 with
        repl := { st1.repl with commands := st1.repl.commands ++ commands } }
      some (runCommands api lib uuid mockEnabled commands st2)

/-- `runCommandIds` (lines 212–215): resolve `ids` against the current queue —
`filter` keeps queue order, not the order of `ids` — and run the result. -/
def runCommandIds (api : Api) (lib : YamlLib) (uuid : Nat → String) (mockEnabled : Bool)
    (ids : List String) (st : St) : St × Bool :=
  runCommands api lib uuid mockEnabled
    (st.repl.commands.filter (fun command => ids.contains command.id)) st

/-- The status the queue shows for `id`: that of the first command carrying it. -/
def statusOf (repl : Repl) (id : String) : Option ReplCommandStatus :=
  (repl.commands.find? (fun c => c.id = id)).map (·.status)

/-- Whether some command of the queue carries `id`. -/
def hasId (repl : Repl) (id : String) : Bool :=
  repl.commands.any (fun c => c.id = id)

/-- Whether every stringified capture record parses back — exactly the
condition under which `runGetMocks` does not throw. -/
def mocksOk (api : Api) (lib : YamlLib) : Bool :=
  match api.mockRaw with
  | .error _ => true
  | .ok items => items.all (fun item => (lib.parse (lib.stringify (mockYaml item))).isSome)

/-- Whether `runCommand` reports success for `c`: the dispatch resolves and,
with mock generation enabled, fetching the mocks does not throw. -/
def cmdOk (api : Api) (lib : YamlLib) (mockEnabled : Bool) (c : ReplCommand) : Bool :=
  (api.run c.yaml).isOk && (!mockEnabled || mocksOk api lib)

/-! ### A concrete environment for evaluating the theorems -/

/-- A concrete uuid supply with pairwise-distinct values. -/
def demoUuid (n : Nat) : String := "uuid-" ++ toString n

/-- A capture record whose script file is `"f1"`. -/
def demoItem1 : CaptureItem := ⟨some ⟨some "f1", none⟩⟩

/-- A capture record whose script file is `"f2"`. -/
def demoItem2 : CaptureItem := ⟨some ⟨some "f2", none⟩⟩

/-- A concrete stand-in for the external YAML printer; on the `mockResult`
objects the witnesses use, it emits the script file name. -/
def demoStringify : Yaml → String
  | .str s => s
  | .obj (("runScript", .obj (("file", .str f) :: _)) :: _) => f
  | _ => "yaml"

/-- A concrete stand-in for the external YAML parser, inverting
`demoStringify` on the values the witnesses use. -/
def demoParse : String → Option Yaml
  | "docs" => some (.arr [.str "a", .str "b"])
  | "solo" => some (.str "solo")
  | "f1" => some (mockYaml demoItem1)
  | "f2" => some (mockYaml demoItem2)
  | _ => none

/-- The concrete YAML library built from the two stand-ins. -/
def demoLib : YamlLib := { parse := demoParse, stringify := demoStringify }

/-- An execution client whose capture response holds the two demo records. -/
def demoApiMocks : Api :=
  { run := fun _ => .ok (), dryRun := fun _ => .ok (), mockRaw := .ok [demoItem1, demoItem2] }

/-- An execution client whose capture payload is not a well-formed array. -/
def demoApiBadMock : Api :=
  { run := fun _ => .ok (), dryRun := fun _ => .ok (), mockRaw := .error () }

/-- An execution client that rejects the dry run of the document `"b"`. -/
def demoApiRejectB : Api :=
  { run := fun _ => .ok (),
    dryRun := fun y => if y = "b" then .error "bad candidate" else .ok (),
    mockRaw := .ok [] }

/-- An execution client that fails the real run of the yaml `"yx"`. -/
def demoApiFailYx : Api :=
  { run := fun y => if y = "yx" then .error "boom" else .ok (),
    dryRun := fun _ => .ok (), mockRaw := .ok [] }

/-- The command the run-centred witnesses execute. -/
def demoX : ReplCommand := ⟨"x", .pending, "yx"⟩

/-- A three-command queue with `demoX` in the middle. -/
def demoQueueX : Repl :=
  ⟨[⟨"a", .success, "ya"⟩, demoX, ⟨"b", .pending, "yb"⟩]⟩

/-- The hook state holding `demoQueueX`, fresh counters and an empty trace. -/
def demoStX : St := ⟨demoQueueX, none, 0, [], 0⟩

/-- C8 witness: a two-document input at counter 0. -/
theorem parseCommands_correct_witness :
    ∃ cs : List ReplCommand,
      parseCommands demoLib demoUuid 0 "docs" = some (cs, 0 + cs.length) ∧
      cs.map (·.yaml) = docYamls demoLib (.arr [.str "a", .str "b"]) ∧
      (∀ elems, Yaml.arr [.str "a", .str "b"] = .arr elems → cs.length = elems.length) ∧
      ((∀ elems, Yaml.arr [.str "a", .str "b"] ≠ .arr elems) → cs.length = 1) ∧
      (∀ c ∈ cs, c.status = .pending) ∧
      cs.map (·.id) = (List.range cs.length).map (fun i => demoUuid (0 + i)) ∧
      (Function.Injective demoUuid → (cs.map (·.id)).Nodup) :=
  parseCommands_correct demoLib demoUuid 0 "docs" (.arr [.str "a", .str "b"]) rfl

/-! ### Submission atomicity -/

/-- C2: `submit` is atomic with respect to validation — whenever some parsed
candidate fails its dry run, `runCommandYaml` returns rejected (`false`) with
the first failure's message recorded, no candidate is appended, and the queue
after the call is exactly the queue before the call. -/
theorem runCommandYaml_atomic (api : Api) (lib : YamlLib) (uuid : Nat → String)
    (mockEnabled : Bool) (yaml : String) (st : St) (commands : List ReplCommand)
    (ctr' : Nat) (msg : String)
    (hparse : parseCommands lib uuid st.ctr yaml = some (commands, ctr'))
    (hfail : dryRunFirstFailure api commands = some msg) :
    ∃ st' : St, runCommandYaml api lib uuid mockEnabled yaml st = some (st', false) ∧
      st'.repl = st.repl ∧ st'.errorMessage = some msg := by
  refine ⟨{ st with ctr := ctr', errorMessage := some msg }, ?_, rfl, rfl⟩
  simp [runCommandYaml, hparse, hfail]

/-- C2 witness: the second of two candidates is rejected by the dry run. -/
theorem runCommandYaml_atomic_witness :
    ∃ st' : St, runCommandYaml demoApiRejectB demoLib demoUuid false "docs" demoStX =
        some (st', false) ∧
      st'.repl = demoStX.repl ∧ st'.errorMessage = some "bad candidate" :=
  runCommandYaml_atomic demoApiRejectB demoLib demoUuid false "docs" demoStX
    [⟨demoUuid 0, .pending, "a"⟩, ⟨demoUuid 1, .pending, "b"⟩] 2 "bad candidate" rfl rfl

/-! ### Capture-parse failure tolerance -/

theorem setCommandStatus_comp (id : String) (s₁ s₂ : ReplCommandStatus) (repl : Repl) :
    setCommandStatus id s₂ (setCommandStatus id s₁ repl) = setCommandStatus id s₂ repl := by
  obtain ⟨cs⟩ := repl
  simp only [setCommandStatus, List.map_map]
  congr 1
  apply List.map_congr_left
  intro c _
  by_cases h : c.id = id <;> simp [Function.comp, h]

/-- C4: when the command executes successfully with mock generation enabled
but the capture payload is not a well-formed JSON array, the failure is
treated as zero captures: no command is inserted (the queue is the old queue
with only the triggering command's status changed), the user-visible message
`"Error parsing API response"` is set, the triggering command still ends
`success`, and `runCommand` reports success, so the run is not aborted. -/
theorem runCommand_captureParseError (api : Api) (lib : YamlLib) (uuid : Nat → String)
    (command : ReplCommand) (st : St)
    (hok : api.run command.yaml = .ok ())
    (hbad : api.mockRaw = .error ()) :
    runCommand api lib uuid true command st =
      ({ st with repl := setCommandStatus command.id .success st.repl,
                 errorMessage := some "Error parsing API response",
                 trace := st.trace ++ [command.yaml] }, true) ∧
    (runCommand api lib uuid true command st).1.repl.commands.length =
      st.repl.commands.length := by
  have hmain : runCommand api lib uuid true command st =
      ({ st with repl := setCommandStatus command.id .success st.repl,
                 errorMessage := some "Error parsing API response",
                 trace := st.trace ++ [command.yaml] }, true) := by
    simp only [runCommand, hok, hbad, runGetMocks, if_pos]
    simp only [spliceMocks, jsFindIndex, List.foldl_nil]
    have h2 : setCommandStatus command.id .success
        ({ commands := (setCommandStatus command.id .running st.repl).commands } : Repl) =
        setCommandStatus command.id .success st.repl :=
      setCommandStatus_comp command.id .running .success st.repl
    rw [h2]
  refine ⟨hmain, ?_⟩
  rw [hmain]
  simp [setCommandStatus]

/-! ### Status lookup under the queue operations -/

theorem find?_setCommandStatus_self (id : String) (s : ReplCommandStatus)
    (cs : List ReplCommand) :
    (cs.map (fun c => if c.id = id then { c with status := s } else c)).find?
      (fun c => c.id = id) =
      (cs.find? (fun c => c.id = id)).map (fun c => { c with status := s }) := by
  induction cs with
  | nil => rfl
  | cons a cs ih =>
    by_cases ha : a.id = id
    · rw [List.map_cons, if_pos ha, List.find?_cons_of_pos _ (by simp [ha]),
        List.find?_cons_of_pos _ (by simp [ha])]
      rfl
    · rw [List.map_cons, if_neg ha, List.find?_cons_of_neg _ (by simp [ha]),
        List.find?_cons_of_neg _ (by simp [ha])]
      exact ih

theorem statusOf_set_self (id : String) (s : ReplCommandStatus) (repl : Repl)
    (h : hasId repl id = true) :
    statusOf (setCommandStatus id s repl) id = some s := by
  obtain ⟨cs⟩ := repl
  simp only [hasId, List.any_eq_true, decide_eq_true_eq] at h
  obtain ⟨c, hc, hcid⟩ := h
  have hsome : (cs.find? (fun c => c.id = id)).isSome := by
    rw [List.find?_isSome]
    exact ⟨c, hc, by simp [hcid]⟩
  obtain ⟨c', hc'⟩ := Option.isSome_iff_exists.mp hsome
  simp only [statusOf, setCommandStatus]
  rw [find?_setCommandStatus_self, hc']
  rfl

theorem statusOf_set_other (id id' : String) (s : ReplCommandStatus) (repl : Repl)
    (hne : id' ≠ id) :
    statusOf (setCommandStatus id s repl) id' = statusOf repl id' := by
  obtain ⟨cs⟩ := repl
  simp only [statusOf, setCommandStatus]
  induction cs with
  | nil => rfl
  | cons a cs ih =>
    by_cases ha : a.id = id'
    · have hai : ¬(a.id = id) := by rw [ha]; exact hne
      rw [List.map_cons, if_neg hai, List.find?_cons_of_pos _ (by simp [ha]),
        List.find?_cons_of_pos _ (by simp [ha])]
    · have hmap : ((if a.id = id then { a with status := s } else a) : ReplCommand).id = a.id := by
        by_cases h2 : a.id = id <;> simp [h2]
      rw [List.map_cons, List.find?_cons_of_neg _ (by simp [hmap, ha]),
        List.find?_cons_of_neg _ (by simp [ha])]
      exact ih

theorem hasId_set (id id' : String) (s : ReplCommandStatus) (repl : Repl) :
    hasId (setCommandStatus id s repl) id' = hasId repl id' := by
  obtain ⟨cs⟩ := repl
  simp only [hasId, setCommandStatus, List.any_map]
  congr 1
  funext c
  by_cases h : c.id = id <;> simp [Function.comp, h]

/-! ### Mock splicing -/

theorem parseAll_singletons (lib : YamlLib) (uuid : Nat → String) (ys : List String)
    (h : ∀ y ∈ ys, ∃ v, lib.parse y = some v ∧ docYamls lib v = [y]) :
    ∀ ctr, parseAll lib uuid ctr ys = some ((buildPending uuid ctr ys).1, ctr + ys.length) := by
  induction ys with
  | nil => intro ctr; simp [parseAll, buildPending]
  | cons y ys ih =>
    intro ctr
    obtain ⟨v, hv, hd⟩ := h y (by simp)
    have hrec := ih (fun y hy => h y (by simp [hy])) (ctr + 1)
    simp only [parseAll, parseCommands, hv, hd, buildPending, hrec]
    simp only [List.cons_append, List.nil_append, Option.some.injEq, Prod.mk.injEq,
      List.length_cons]
    refine ⟨by trivial, by omega⟩

theorem jsSplice_nat (cmds : List ReplCommand) (i : Nat) (hle : i ≤ cmds.length)
    (m : ReplCommand) :
    jsSplice cmds (i : Int) m = cmds.take i ++ m :: cmds.drop i := by
  simp only [jsSplice]
  have h1 : ¬((i : Int) < 0) := by omega
  rw [if_neg h1]
  have h3 : (min (i : Int) ((cmds.length : Nat) : Int)).toNat = i := by omega
  rw [h3]

theorem splice_loop (mocks : List ReplCommand) :
    ∀ (cmds : List ReplCommand) (i : Nat), i ≤ cmds.length →
      (mocks.foldl (fun (acc : List ReplCommand × Int) m => (jsSplice acc.1 acc.2 m, acc.2 + 1))
        (cmds, (i : Int))).1 = cmds.take i ++ mocks ++ cmds.drop i := by
  induction mocks with
  | nil => intro cmds i h; simp
  | cons m mocks ih =>
    intro cmds i h
    simp only [List.foldl_cons]
    have hcast : ((i : Int) + 1) = (((i + 1 : Nat)) : Int) := by omega
    rw [jsSplice_nat cmds i h m, hcast,
      ih (cmds.take i ++ m :: cmds.drop i) (i + 1)
        (by simp only [List.length_append, List.length_take, List.length_cons]; omega)]
    have hA : (cmds.take i).length = i := by simp only [List.length_take]; omega
    rw [List.take_append_eq_append_take, List.drop_append_eq_append_drop, hA]
    have ht1 : (cmds.take i).take (i + 1) = cmds.take i :=
      List.take_of_length_le (by omega)
    have ht2 : (m :: cmds.drop i).take (i + 1 - i) = [m] := by
      have : i + 1 - i = 1 := by omega
      rw [this]
      rfl
    have hd1 : (cmds.take i).drop (i + 1) = [] :=
      List.drop_eq_nil_of_le (by omega)
    have hd2 : (m :: cmds.drop i).drop (i + 1 - i) = cmds.drop i := by
      have : i + 1 - i = 1 := by omega
      rw [this]
      rfl
    rw [ht1, ht2, hd1, hd2]
    simp

theorem spliceMocks_eq (cmds : List ReplCommand) (cmdId : String) (mocks : List ReplCommand)
    (i : Nat) (hidx : cmds.findIdx? (fun c => c.id = cmdId) = some i) :
    spliceMocks cmds cmdId mocks = cmds.take i ++ mocks ++ cmds.drop i := by
  have hlt : i < cmds.length := (List.findIdx?_eq_some_iff_getElem.mp hidx).1
  simp only [spliceMocks, jsFindIndex, hidx]
  exact splice_loop mocks cmds i (Nat.le_of_lt hlt)

theorem mem_jsSplice_of_mem {y x : ReplCommand} {l : List ReplCommand} {i : Int}
    (h : y ∈ l) : y ∈ jsSplice l i x := by
  simp only [jsSplice]
  rw [List.mem_append]
  conv at h => rw [← List.take_append_drop
    ((if i < 0 then max ((l.length : Int) + i) 0 else min i (l.length : Int)).toNat) l]
  rcases List.mem_append.mp h with h | h
  · exact Or.inl h
  · exact Or.inr (List.mem_cons_of_mem x h)

theorem find?_jsSplice (l : List ReplCommand) (i : Int) (x : ReplCommand)
    (p : ReplCommand → Bool) (hx : p x = false) :
    (jsSplice l i x).find? p = l.find? p := by
  simp only [jsSplice]
  rw [List.find?_append, List.find?_cons_of_neg _ (by simp [hx]), ← List.find?_append,
    List.take_append_drop]

theorem spliceLoop_mem {y : ReplCommand} (mocks : List ReplCommand) :
    ∀ (l : List ReplCommand) (i : Int), y ∈ l →
      y ∈ (mocks.foldl (fun (acc : List ReplCommand × Int) m =>
        (jsSplice acc.1 acc.2 m, acc.2 + 1)) (l, i)).1 := by
  induction mocks with
  | nil => intro l i h; exact h
  | cons m mocks ih =>
    intro l i h
    exact ih (jsSplice l i m) (i + 1) (mem_jsSplice_of_mem h)

theorem spliceLoop_find? (p : ReplCommand → Bool) (mocks : List ReplCommand)
    (hm : ∀ m ∈ mocks, p m = false) :
    ∀ (l : List ReplCommand) (i : Int),
      ((mocks.foldl (fun (acc : List ReplCommand × Int) m =>
        (jsSplice acc.1 acc.2 m, acc.2 + 1)) (l, i)).1).find? p = l.find? p := by
  induction mocks with
  | nil => intro l i; rfl
  | cons m mocks ih =>
    intro l i
    rw [List.foldl_cons, ih (fun m hm' => hm m (by simp [hm'])) (jsSplice l i m) (i + 1),
      find?_jsSplice l i m p (hm m (by simp))]

theorem hasId_spliceMocks (cmds : List ReplCommand) (cmdId : String)
    (mocks : List ReplCommand) (id' : String)
    (h : hasId { commands := cmds } id' = true) :
    hasId { commands := spliceMocks cmds cmdId mocks } id' = true := by
  simp only [hasId, List.any_eq_true] at h ⊢
  obtain ⟨y, hy, hp⟩ := h
  exact ⟨y, spliceLoop_mem mocks cmds _ hy, hp⟩

theorem statusOf_spliceMocks (cmds : List ReplCommand) (cmdId : String)
    (mocks : List ReplCommand) (id' : String)
    (hm : ∀ m ∈ mocks, m.id ≠ id') :
    statusOf { commands := spliceMocks cmds cmdId mocks } id' =
      statusOf { commands := cmds } id' := by
  simp only [statusOf, spliceMocks]
  rw [spliceLoop_find? _ mocks (fun m hm' => by simp [hm m hm'])]

theorem findIdx?_setCommandStatus (id cmdId : String) (s : ReplCommandStatus) (repl : Repl) :
    (setCommandStatus id s repl).commands.findIdx? (fun c => c.id = cmdId) =
      repl.commands.findIdx? (fun c => c.id = cmdId) := by
  simp only [setCommandStatus, List.findIdx?_map]
  congr 1
  funext c
  by_cases h : c.id = id <;> simp [Function.comp, h]

theorem map_success_fixed (id : String) (s : ReplCommandStatus) (mocks : List ReplCommand)
    (hsucc : ∀ c ∈ mocks, c.status = s) :
    mocks.map (fun c => if c.id = id then { c with status := s } else c) = mocks := by
  conv_rhs => rw [← List.map_id mocks]
  apply List.map_congr_left
  intro c hc
  by_cases h : c.id = id
  · obtain ⟨cid, cst, cy⟩ := c
    have := hsucc _ hc
    simp only at this
    simp [h, this]
  · simp [h]

/-! ### What `runGetMocks` can do -/

theorem parseCommands_eq_none_iff (lib : YamlLib) (uuid : Nat → String) (ctr : Nat)
    (y : String) :
    parseCommands lib uuid ctr y = none ↔ lib.parse y = none := by
  cases h : lib.parse y <;> simp [parseCommands, h]

theorem parseAll_eq_none_iff (lib : YamlLib) (uuid : Nat → String) :
    ∀ (ctr : Nat) (ys : List String),
      parseAll lib uuid ctr ys = none ↔ ∃ y ∈ ys, lib.parse y = none := by
  intro ctr ys
  induction ys generalizing ctr with
  | nil => simp [parseAll]
  | cons y ys ih =>
    constructor
    · intro h
      simp only [parseAll] at h
      split at h
      · next heq =>
        exact ⟨y, by simp, (parseCommands_eq_none_iff lib uuid ctr y).mp heq⟩
      · next cs0 ctr0 heq =>
        split at h
        · next heq2 =>
          obtain ⟨y', hy', hn⟩ := (ih ctr0).mp heq2
          exact ⟨y', by simp [hy'], hn⟩
        · exact Option.noConfusion h
    · rintro ⟨y', hy', hn⟩
      rcases List.mem_cons.mp hy' with rfl | hy'
      · simp only [parseAll]
        rw [(parseCommands_eq_none_iff lib uuid ctr y').mpr hn]
      · simp only [parseAll]
        split
        · rfl
        · next cs0 ctr0 heq =>
          rw [(ih ctr0).mpr ⟨y', hy', hn⟩]

theorem buildPending_id_mem (uuid : Nat → String) :
    ∀ (ys : List String) (ctr : Nat) (c : ReplCommand),
      c ∈ (buildPending uuid ctr ys).1 → ∃ n, c.id = uuid n := by
  intro ys
  induction ys with
  | nil => intro ctr c h; simp [buildPending] at h
  | cons y ys ih =>
    intro ctr c h
    simp only [buildPending, List.mem_cons] at h
    rcases h with rfl | h
    · exact ⟨ctr, rfl⟩
    · exact ih (ctr + 1) c h

theorem parseAll_id_mem (lib : YamlLib) (uuid : Nat → String) :
    ∀ (ys : List String) (ctr : Nat) (cs : List ReplCommand) (ctr' : Nat),
      parseAll lib uuid ctr ys = some (cs, ctr') →
      ∀ c ∈ cs, ∃ n, c.id = uuid n := by
  intro ys
  induction ys with
  | nil =>
    intro ctr cs ctr' h c hc
    simp only [parseAll, Option.some.injEq, Prod.mk.injEq] at h
    rw [← h.1] at hc
    simp at hc
  | cons y ys ih =>
    intro ctr cs ctr' h c hc
    simp only [parseAll] at h
    split at h
    · exact Option.noConfusion h
    · next cs0 ctr0 heq =>
      split at h
      · exact Option.noConfusion h
      · next rest ctr1 heq2 =>
        simp only [Option.some.injEq, Prod.mk.injEq] at h
        rw [← h.1] at hc
        rcases List.mem_append.mp hc with hc | hc
        · cases hlp : lib.parse y with
          | none =>
            rw [(parseCommands_eq_none_iff lib uuid ctr y).mpr hlp] at heq
            exact Option.noConfusion heq
          | some v =>
            have hpair : buildPending uuid ctr (docYamls lib v) = (cs0, ctr0) := by
              simp only [parseCommands, hlp, Option.some.injEq] at heq
              exact heq
            have hcs : cs0 = (buildPending uuid ctr (docYamls lib v)).1 :=
              (congrArg Prod.fst hpair).symm
            rw [hcs] at hc
            exact buildPending_id_mem uuid (docYamls lib v) ctr c hc
        · exact ih ctr0 rest ctr1 heq2 c hc

theorem runGetMocks_none_iff (api : Api) (lib : YamlLib) (uuid : Nat → String) (st : St) :
    runGetMocks api lib uuid st = none ↔ mocksOk api lib = false := by
  constructor
  · intro h
    simp only [runGetMocks] at h
    split at h
    · exact Option.noConfusion h
    · next items heq =>
      split at h
      · next heq2 =>
        obtain ⟨y, hy, hn⟩ := (parseAll_eq_none_iff lib uuid st.ctr _).mp heq2
        obtain ⟨item, hitem, rfl⟩ := List.mem_map.mp hy
        simp only [mocksOk, heq]
        rw [List.all_eq_false]
        exact ⟨item, hitem, by simp [hn]⟩
      · exact Option.noConfusion h
  · intro h
    simp only [mocksOk] at h
    split at h
    · exact absurd h (by simp)
    · next items heq =>
      rw [List.all_eq_false] at h
      obtain ⟨item, hitem, hni⟩ := h
      have hn : lib.parse (lib.stringify (mockYaml item)) = none := by
        rw [← Option.not_isSome_iff_eq_none]
        simpa using hni
      simp only [runGetMocks, heq]
      rw [(parseAll_eq_none_iff lib uuid st.ctr _).mpr
        ⟨lib.stringify (mockYaml item),
          List.mem_map_of_mem (fun item => lib.stringify (mockYaml item)) hitem, hn⟩]

theorem runGetMocks_frame (api : Api) (lib : YamlLib) (uuid : Nat → String) (st : St)
    (mocks : List ReplCommand) (st' : St)
    (h : runGetMocks api lib uuid st = some (mocks, st')) :
    st'.repl = st.repl ∧ st'.trace = st.trace ∧ st'.flushes = st.flushes ∧
    (∀ m ∈ mocks, ∃ n, m.id = uuid n) ∧ (∀ m ∈ mocks, m.status = .success) := by
  simp only [runGetMocks] at h
  split at h
  · simp only [Option.some.injEq, Prod.mk.injEq] at h
    obtain ⟨hm, hst⟩ := h
    rw [← hst, ← hm]
    refine ⟨rfl, rfl, rfl, by simp, by simp⟩
  · next items heq =>
    split at h
    · exact Option.noConfusion h
    · next cs0 ctr0 heq2 =>
      simp only [Option.some.injEq, Prod.mk.injEq] at h
      obtain ⟨hm, hst⟩ := h
      rw [← hst, ← hm]
      refine ⟨rfl, rfl, rfl, ?_, ?_⟩
      · intro m hm'
        obtain ⟨c0, hc0, rfl⟩ := List.mem_map.mp hm'
        exact parseAll_id_mem lib uuid _ st.ctr cs0 ctr0 heq2 c0 hc0
      · intro m hm'
        obtain ⟨c0, _, rfl⟩ := List.mem_map.mp hm'
        rfl

/-- One execution step, characterized: the returned flag is `cmdOk`, the trace
gains exactly the dispatched yaml, presence of any id is preserved, the
command's own id ends `success` or `error` according to `cmdOk`, and the
status shown for any other id outside the uuid supply is untouched. -/
theorem runCommand_spec (api : Api) (lib : YamlLib) (uuid : Nat → String)
    (mockEnabled : Bool) (c : ReplCommand) (st : St) :
    (runCommand api lib uuid mockEnabled c st).2 = cmdOk api lib mockEnabled c ∧
    (runCommand api lib uuid mockEnabled c st).1.trace = st.trace ++ [c.yaml] ∧
    (∀ id', hasId st.repl id' = true →
      hasId (runCommand api lib uuid mockEnabled c st).1.repl id' = true) ∧
    (hasId st.repl c.id = true →
      statusOf (runCommand api lib uuid mockEnabled c st).1.repl c.id =
        some (if cmdOk api lib mockEnabled c then .success else .error)) ∧
    (∀ id', id' ≠ c.id → (∀ n, uuid n ≠ id') →
      statusOf (runCommand api lib uuid mockEnabled c st).1.repl id' =
        statusOf st.repl id') := by
  cases hrun : api.run c.yaml with
  | error e =>
    have hco : cmdOk api lib mockEnabled c = false := by simp [cmdOk, hrun, Except.isOk, Except.toBool]
    have hres : runCommand api lib uuid mockEnabled c st =
        ({ st with
            repl := setCommandStatus c.id .error (setCommandStatus c.id .running st.repl),
            trace := st.trace ++ [c.yaml] }, false) := by
      simp only [runCommand, hrun]
    rw [hres, hco]
    refine ⟨rfl, rfl, ?_, ?_, ?_⟩
    · intro id' h
      simpa only [hasId_set] using h
    · intro h
      rw [statusOf_set_self _ _ _ (by simpa only [hasId_set] using h)]
      rfl
    · intro id' hne _
      rw [statusOf_set_other _ _ _ _ hne, statusOf_set_other _ _ _ _ hne]
  | ok u =>
    cases u
    cases mockEnabled with
    | false =>
      have hco : cmdOk api lib false c = true := by simp [cmdOk, hrun, Except.isOk, Except.toBool]
      have hres : runCommand api lib uuid false c st =
          ({ st with
              repl := setCommandStatus c.id .success (setCommandStatus c.id .running st.repl),
              trace := st.trace ++ [c.yaml], flushes := st.flushes + 1 }, true) := by
        simp only [runCommand, hrun, Bool.false_eq_true, if_false]
      rw [hres, hco]
      refine ⟨rfl, rfl, ?_, ?_, ?_⟩
      · intro id' h
        simpa only [hasId_set] using h
      · intro h
        rw [statusOf_set_self _ _ _ (by simpa only [hasId_set] using h)]
        rfl
      · intro id' hne _
        rw [statusOf_set_other _ _ _ _ hne, statusOf_set_other _ _ _ _ hne]
    | true =>
      rcases hgm : runGetMocks api lib uuid
          { st with repl := setCommandStatus c.id ReplCommandStatus.running st.repl,
                    trace := st.trace ++ [c.yaml] } with _ | ⟨mocks, st2⟩
      · have hmo : mocksOk api lib = false := (runGetMocks_none_iff api lib uuid _).mp hgm
        have hco : cmdOk api lib true c = false := by simp [cmdOk, hrun, hmo, Except.isOk, Except.toBool]
        have hres : runCommand api lib uuid true c st =
            ({ st with
                repl := setCommandStatus c.id .error (setCommandStatus c.id .running st.repl),
                trace := st.trace ++ [c.yaml] }, false) := by
          simp only [runCommand, hrun, if_pos, hgm]
        rw [hres, hco]
        refine ⟨rfl, rfl, ?_, ?_, ?_⟩
        · intro id' h
          simpa only [hasId_set] using h
        · intro h
          rw [statusOf_set_self _ _ _ (by simpa only [hasId_set] using h)]
          rfl
        · intro id' hne _
          rw [statusOf_set_other _ _ _ _ hne, statusOf_set_other _ _ _ _ hne]
      · have hfr := runGetMocks_frame api lib uuid _ mocks st2 hgm
        have hmo : mocksOk api lib = true := by
          by_contra hx
          rw [(runGetMocks_none_iff api lib uuid _).mpr
            (Bool.not_eq_true _ ▸ Bool.eq_false_iff.mpr hx)] at hgm
          exact Option.noConfusion hgm
        have hco : cmdOk api lib true c = true := by simp [cmdOk, hrun, hmo, Except.isOk, Except.toBool]
        have hres : runCommand api lib uuid true c st =
            ({ st2 with repl := setCommandStatus c.id ReplCommandStatus.success (Repl.mk (spliceMocks st2.repl.commands c.id mocks)) }, true) := by
          simp only [runCommand, hrun, if_pos, hgm]
        have hrepl : st2.repl =
            setCommandStatus c.id ReplCommandStatus.running st.repl := by
          rw [hfr.1]
        rw [hres, hco]
        refine ⟨rfl, by rw [hfr.2.1], ?_, ?_, ?_⟩
        · intro id' h
          rw [hasId_set]
          refine hasId_spliceMocks st2.repl.commands c.id mocks id' ?_
          show hasId st2.repl id' = true
          rw [hrepl, hasId_set]
          exact h
        · intro h
          have hh : hasId (⟨spliceMocks st2.repl.commands c.id mocks⟩ : Repl) c.id = true := by
            refine hasId_spliceMocks st2.repl.commands c.id mocks c.id ?_
            show hasId st2.repl c.id = true
            rw [hrepl, hasId_set]
            exact h
          rw [statusOf_set_self _ _ _ hh]
          rfl
        · intro id' hne hfresh
          rw [statusOf_set_other _ _ _ _ hne]
          have hm : ∀ m ∈ mocks, m.id ≠ id' := by
            intro m hm'
            obtain ⟨n, hn⟩ := hfr.2.2.2.1 m hm'
            rw [hn]
            exact hfresh n
          rw [statusOf_spliceMocks st2.repl.commands c.id mocks id' hm]
          show statusOf st2.repl id' = statusOf st.repl id'
          rw [hrepl, statusOf_set_other _ _ _ _ hne]

/-! ### The run loop -/

theorem statusOf_eq_none (repl : Repl) (id : String) (h : hasId repl id = false) :
    statusOf repl id = none := by
  simp only [hasId, List.any_eq_false] at h
  simp only [statusOf]
  rw [List.find?_eq_none.mpr fun x hx => by simpa using h x hx]
  rfl

theorem foldl_set_hasId (s : ReplCommandStatus) :
    ∀ (cs : List ReplCommand) (repl : Repl) (id' : String),
      hasId (cs.foldl (fun r c => setCommandStatus c.id s r) repl) id' = hasId repl id' := by
  intro cs
  induction cs with
  | nil => intro repl id'; rfl
  | cons c cs ih =>
    intro repl id'
    rw [List.foldl_cons, ih (setCommandStatus c.id s repl) id', hasId_set]

theorem go_abort_basic (api : Api) (lib : YamlLib) (uuid : Nat → String) (mockEnabled : Bool) :
    ∀ (cs : List ReplCommand) (st : St),
      (runCommandsGo api lib uuid mockEnabled cs true st).2 = true ∧
      (runCommandsGo api lib uuid mockEnabled cs true st).1.trace = st.trace ∧
      (∀ id', hasId st.repl id' = true →
        hasId (runCommandsGo api lib uuid mockEnabled cs true st).1.repl id' = true) := by
  intro cs
  induction cs with
  | nil => intro st; exact ⟨rfl, rfl, fun id' h => h⟩
  | cons c cs ih =>
    intro st
    simp only [runCommandsGo, if_pos]
    obtain ⟨h1, h2, h3⟩ := ih { st with repl := setCommandStatus c.id .canceled st.repl }
    refine ⟨h1, h2, ?_⟩
    intro id' h
    refine h3 id' ?_
    show hasId (setCommandStatus c.id .canceled st.repl) id' = true
    rw [hasId_set]
    exact h

theorem go_abort_statusOf (api : Api) (lib : YamlLib) (uuid : Nat → String)
    (mockEnabled : Bool) :
    ∀ (cs : List ReplCommand) (st : St) (id' : String),
      statusOf (runCommandsGo api lib uuid mockEnabled cs true st).1.repl id' =
        (if cs.any (fun c => c.id = id') = true ∧ hasId st.repl id' = true
          then some .canceled else statusOf st.repl id') := by
  intro cs
  induction cs with
  | nil =>
    intro st id'
    simp [runCommandsGo]
  | cons c cs ih =>
    intro st id'
    simp only [runCommandsGo, if_pos]
    rw [ih { st with repl := setCommandStatus c.id .canceled st.repl } id']
    have hpres : hasId (setCommandStatus c.id .canceled st.repl) id' =
        hasId st.repl id' := hasId_set _ _ _ _
    by_cases hc : c.id = id'
    · by_cases hp : hasId st.repl id' = true
      · have hp' : hasId st.repl c.id = true := by rw [hc]; exact hp
        have hself : statusOf (setCommandStatus c.id .canceled st.repl) id' =
            some .canceled := by
          rw [← hc]
          exact statusOf_set_self c.id .canceled st.repl hp'
        by_cases hany : cs.any (fun x => x.id = id') = true
        · rw [if_pos ⟨hany, by rw [hpres]; exact hp⟩,
            if_pos ⟨by simp [List.any_cons, hany], hp⟩]
        · rw [if_neg (fun hx => hany hx.1), hself,
            if_pos ⟨by simp [List.any_cons, hc], hp⟩]
      · have hpf : hasId st.repl id' = false := by
          revert hp; cases hasId st.repl id' <;> simp
        rw [if_neg (fun hx => hp (by rw [← hpres]; exact hx.2)),
          if_neg (fun hx => hp hx.2),
          statusOf_eq_none _ _ (by rw [hpres]; exact hpf), statusOf_eq_none _ _ hpf]
    · have hother : statusOf (setCommandStatus c.id .canceled st.repl) id' =
          statusOf st.repl id' := statusOf_set_other _ _ _ _ (fun h => hc h.symm)
      have hhead : (c :: cs).any (fun x => x.id = id') = cs.any (fun x => x.id = id') := by
        simp [List.any_cons, hc]
      rw [hother, hpres, hhead]

theorem go_statusOf_frame (api : Api) (lib : YamlLib) (uuid : Nat → String)
    (mockEnabled : Bool) (id' : String) (hfresh : ∀ n, uuid n ≠ id') :
    ∀ (cs : List ReplCommand) (ab : Bool) (st : St), (∀ c ∈ cs, c.id ≠ id') →
      statusOf (runCommandsGo api lib uuid mockEnabled cs ab st).1.repl id' =
        statusOf st.repl id' := by
  intro cs
  induction cs with
  | nil => intro ab st _; rfl
  | cons c cs ih =>
    intro ab st hne
    cases ab with
    | true =>
      simp only [runCommandsGo, if_pos]
      rw [ih true _ fun x hx => hne x (by simp [hx])]
      exact statusOf_set_other _ _ _ _ fun h => hne c (by simp) h.symm
    | false =>
      simp only [runCommandsGo, Bool.false_eq_true, if_false]
      rw [ih _ _ fun x hx => hne x (by simp [hx])]
      exact (runCommand_spec api lib uuid mockEnabled c st).2.2.2.2 id'
        (fun h => hne c (by simp) h.symm) hfresh

theorem go_hasId (api : Api) (lib : YamlLib) (uuid : Nat → String) (mockEnabled : Bool)
    (id' : String) :
    ∀ (cs : List ReplCommand) (ab : Bool) (st : St), hasId st.repl id' = true →
      hasId (runCommandsGo api lib uuid mockEnabled cs ab st).1.repl id' = true := by
  intro cs
  induction cs with
  | nil => intro ab st h; exact h
  | cons c cs ih =>
    intro ab st h
    cases ab with
    | true =>
      simp only [runCommandsGo, if_pos]
      refine ih true _ ?_
      show hasId (setCommandStatus c.id .canceled st.repl) id' = true
      rw [hasId_set]; exact h
    | false =>
      simp only [runCommandsGo, Bool.false_eq_true, if_false]
      exact ih _ _ ((runCommand_spec api lib uuid mockEnabled c st).2.2.1 id' h)

theorem go_ok_spec (api : Api) (lib : YamlLib) (uuid : Nat → String) (mockEnabled : Bool) :
    ∀ (cs : List ReplCommand) (st : St),
      (∀ c ∈ cs, cmdOk api lib mockEnabled c = true) →
      (runCommandsGo api lib uuid mockEnabled cs false st).2 = false ∧
      (runCommandsGo api lib uuid mockEnabled cs false st).1.trace =
        st.trace ++ cs.map (·.yaml) := by
  intro cs
  induction cs with
  | nil => intro st _; exact ⟨rfl, by simp [runCommandsGo]⟩
  | cons c cs ih =>
    intro st hok
    simp only [runCommandsGo, Bool.false_eq_true, if_false]
    have hsp := runCommand_spec api lib uuid mockEnabled c st
    have hc2 : (runCommand api lib uuid mockEnabled c st).2 = true := by
      rw [hsp.1]; exact hok c (by simp)
    rw [hc2]
    simp only [Bool.not_true]
    obtain ⟨h1, h2⟩ := ih (runCommand api lib uuid mockEnabled c st).1
      (fun x hx => hok x (by simp [hx]))
    refine ⟨h1, ?_⟩
    rw [h2, hsp.2.1]
    simp

theorem go_fail_spec (api : Api) (lib : YamlLib) (uuid : Nat → String) (mockEnabled : Bool)
    (e : String) (fk : ReplCommand) (post : List ReplCommand)
    (hfail : api.run fk.yaml = .error e) :
    ∀ (pre : List ReplCommand) (st : St),
      (∀ c ∈ pre, cmdOk api lib mockEnabled c = true) →
      ((pre ++ fk :: post).map (·.id)).Nodup →
      (∀ (n : Nat) (c : ReplCommand), c ∈ pre ++ fk :: post → uuid n ≠ c.id) →
      (∀ c ∈ pre ++ fk :: post, hasId st.repl c.id = true) →
      (runCommandsGo api lib uuid mockEnabled (pre ++ fk :: post) false st).2 = true ∧
      (runCommandsGo api lib uuid mockEnabled (pre ++ fk :: post) false st).1.trace =
        st.trace ++ pre.map (·.yaml) ++ [fk.yaml] ∧
      statusOf (runCommandsGo api lib uuid mockEnabled (pre ++ fk :: post) false st).1.repl
        fk.id = some .error ∧
      (∀ c ∈ pre, statusOf (runCommandsGo api lib uuid mockEnabled (pre ++ fk :: post)
        false st).1.repl c.id = some .success) ∧
      (∀ c ∈ post, statusOf (runCommandsGo api lib uuid mockEnabled (pre ++ fk :: post)
        false st).1.repl c.id = some .canceled) := by
  intro pre
  induction pre with
  | nil =>
    intro st _ hnodup hfresh hpres
    simp only [List.nil_append, runCommandsGo, Bool.false_eq_true, if_false]
    have hsp := runCommand_spec api lib uuid mockEnabled fk st
    have hcok : cmdOk api lib mockEnabled fk = false := by
      simp [cmdOk, hfail, Except.isOk, Except.toBool]
    have hc2 : (runCommand api lib uuid mockEnabled fk st).2 = false := by
      rw [hsp.1]; exact hcok
    rw [hc2]
    simp only [Bool.not_false]
    set r1 := (runCommand api lib uuid mockEnabled fk st).1 with hr1
    obtain ⟨ga1, ga2, ga3⟩ := go_abort_basic api lib uuid mockEnabled post r1
    have hnefk : ∀ c ∈ post, c.id ≠ fk.id := by
      intro c hc hEq
      simp only [List.nil_append, List.map_cons, List.nodup_cons] at hnodup
      exact hnodup.1 (hEq ▸ List.mem_map_of_mem (·.id) hc)
    refine ⟨ga1, ?_, ?_, by simp, ?_⟩
    · rw [ga2, hsp.2.1]
      simp
    · rw [go_statusOf_frame api lib uuid mockEnabled fk.id
        (fun n => hfresh n fk (by simp)) post true r1 hnefk]
      have hst := hsp.2.2.2.1 (hpres fk (by simp))
      rw [hst, hcok]
      rfl
    · intro c hc
      rw [go_abort_statusOf api lib uuid mockEnabled post r1 c.id]
      have hany : post.any (fun x => x.id = c.id) = true := by
        rw [List.any_eq_true]
        exact ⟨c, hc, by simp⟩
      have hpr : hasId r1.repl c.id = true :=
        hsp.2.2.1 c.id (hpres c (by simp [hc]))
      rw [if_pos ⟨hany, hpr⟩]
  | cons p pre ih =>
    intro st hok hnodup hfresh hpres
    simp only [List.cons_append, runCommandsGo, Bool.false_eq_true, if_false, List.append_eq]
    have hsp := runCommand_spec api lib uuid mockEnabled p st
    have hc2 : (runCommand api lib uuid mockEnabled p st).2 = true := by
      rw [hsp.1]; exact hok p (by simp)
    rw [hc2]
    simp only [Bool.not_true]
    set r1 := (runCommand api lib uuid mockEnabled p st).1 with hr1
    have hnodup' : ((pre ++ fk :: post).map (·.id)).Nodup := by
      simp only [List.cons_append, List.map_cons, List.nodup_cons] at hnodup
      exact hnodup.2
    have hpid : ∀ c ∈ pre ++ fk :: post, c.id ≠ p.id := by
      intro c hc hEq
      simp only [List.cons_append, List.map_cons, List.nodup_cons] at hnodup
      exact hnodup.1 (hEq ▸ List.mem_map_of_mem (·.id) hc)
    obtain ⟨ih1, ih2, ih3, ih4, ih5⟩ := ih r1
      (fun c hc => hok c (by simp [hc]))
      hnodup'
      (fun n c hc => hfresh n c (by
        simp only [List.cons_append]
        exact List.mem_cons_of_mem p hc))
      (fun c hc => hsp.2.2.1 c.id (hpres c (by
        simp only [List.cons_append]
        exact List.mem_cons_of_mem p hc)))
    refine ⟨ih1, ?_, ih3, ?_, ih5⟩
    · rw [ih2, hsp.2.1]
      simp
    · intro c hc
      rcases List.mem_cons.mp hc with rfl | hc
      · rw [go_statusOf_frame api lib uuid mockEnabled c.id
          (fun n => hfresh n c (by simp)) (pre ++ fk :: post) false r1 hpid]
        have hst := hsp.2.2.2.1 (hpres c (by simp))
        rw [hst, hok c (by simp)]
        rfl
      · exact ih4 c hc

/-- C3: running a run-set `pre ++ [fk] ++ post` where every command of `pre`
succeeds and the execution of `fk` fails: `fk` ends `error`, every command of
`post` ends `canceled` and — per the dispatch trace — is never sent to the
execution client, every command of `pre` ends `success` (the status it
individually resolved to), and the run returns `false`. -/
theorem runCommands_abort_on_failure (api : Api) (lib : YamlLib) (uuid : Nat → String)
    (mockEnabled : Bool) (e : String) (pre post : List ReplCommand) (fk : ReplCommand)
    (st : St)
    (hfail : api.run fk.yaml = .error e)
    (hok : ∀ c ∈ pre, cmdOk api lib mockEnabled c = true)
    (hnodup : ((pre ++ fk :: post).map (·.id)).Nodup)
    (hfresh : ∀ (n : Nat) (c : ReplCommand), c ∈ pre ++ fk :: post → uuid n ≠ c.id)
    (hpres : ∀ c ∈ pre ++ fk :: post, hasId st.repl c.id = true) :
    (runCommands api lib uuid mockEnabled (pre ++ fk :: post) st).2 = false ∧
    statusOf (runCommands api lib uuid mockEnabled (pre ++ fk :: post) st).1.repl fk.id =
      some .error ∧
    (∀ c ∈ pre, statusOf (runCommands api lib uuid mockEnabled (pre ++ fk :: post)
      st).1.repl c.id = some .success) ∧
    (∀ c ∈ post, statusOf (runCommands api lib uuid mockEnabled (pre ++ fk :: post)
      st).1.repl c.id = some .canceled) ∧
    (runCommands api lib uuid mockEnabled (pre ++ fk :: post) st).1.trace =
      st.trace ++ pre.map (·.yaml) ++ [fk.yaml] := by
  obtain ⟨h1, h2, h3, h4, h5⟩ := go_fail_spec api lib uuid mockEnabled e fk post hfail pre
    { st with repl := (pre ++ fk :: post).foldl (fun r c => setCommandStatus c.id .pending r) st.repl }
    hok hnodup hfresh
    (by
      intro c hc
      show hasId ((pre ++ fk :: post).foldl (fun r c => setCommandStatus c.id .pending r) st.repl) c.id = true
      rw [foldl_set_hasId]
      exact hpres c hc)
  have hco : runCommands api lib uuid mockEnabled (pre ++ fk :: post) st =
      ((runCommandsGo api lib uuid mockEnabled (pre ++ fk :: post) false
        { st with repl := (pre ++ fk :: post).foldl (fun r c => setCommandStatus c.id .pending r) st.repl }).1,
       !(runCommandsGo api lib uuid mockEnabled (pre ++ fk :: post) false
        { st with repl := (pre ++ fk :: post).foldl (fun r c => setCommandStatus c.id .pending r) st.repl }).2) := rfl
  rw [hco]
  exact ⟨by rw [h1]; rfl, h3, h4, h5, by rw [h2]⟩

/-- The demo uuid values are longer than any one-letter id, hence fresh. -/
theorem demoUuid_ne_short (n : Nat) (s : String) (hs : s.length < 5) : demoUuid n ≠ s := by
  intro h
  have hl := congrArg String.length h
  have h5 : ("uuid-" : String).length = 5 := rfl
  simp only [demoUuid, String.length_append, h5] at hl
  omega

/-- C3 witness: a three-command run-set whose middle command fails. -/
theorem runCommands_abort_on_failure_witness :
    (runCommands demoApiFailYx demoLib demoUuid false
      ([⟨"a", .success, "ya"⟩] ++ demoX :: [⟨"b", .pending, "yb"⟩]) demoStX).2 = false ∧
    statusOf (runCommands demoApiFailYx demoLib demoUuid false
      ([⟨"a", .success, "ya"⟩] ++ demoX :: [⟨"b", .pending, "yb"⟩]) demoStX).1.repl demoX.id =
      some .error ∧
    (∀ c ∈ ([⟨"a", .success, "ya"⟩] : List ReplCommand),
      statusOf (runCommands demoApiFailYx demoLib demoUuid false
        ([⟨"a", .success, "ya"⟩] ++ demoX :: [⟨"b", .pending, "yb"⟩]) demoStX).1.repl c.id =
        some .success) ∧
    (∀ c ∈ ([⟨"b", .pending, "yb"⟩] : List ReplCommand),
      statusOf (runCommands demoApiFailYx demoLib demoUuid false
        ([⟨"a", .success, "ya"⟩] ++ demoX :: [⟨"b", .pending, "yb"⟩]) demoStX).1.repl c.id =
        some .canceled) ∧
    (runCommands demoApiFailYx demoLib demoUuid false
      ([⟨"a", .success, "ya"⟩] ++ demoX :: [⟨"b", .pending, "yb"⟩]) demoStX).1.trace =
      demoStX.trace ++ ([⟨"a", .success, "ya"⟩] : List ReplCommand).map (·.yaml) ++
        [demoX.yaml] :=
  runCommands_abort_on_failure demoApiFailYx demoLib demoUuid false "boom"
    [⟨"a", .success, "ya"⟩] [⟨"b", .pending, "yb"⟩] demoX demoStX
    rfl (by decide) (by decide)
    (by
      intro n c hc
      fin_cases hc <;> exact demoUuid_ne_short n _ (by decide))
    (by decide)

/-- C6: `runCommandIds ids` runs exactly the commands of the current queue
whose id is listed in `ids`, in the queue's order rather than the
caller-supplied order: when they all execute successfully the dispatch trace
is exactly their yamls in queue order and the run reports success, and the
whole call depends on `ids` only through membership, so caller order is
irrelevant. -/
theorem runCommandIds_correct (api : Api) (lib : YamlLib) (uuid : Nat → String)
    (mockEnabled : Bool) (ids : List String) (st : St)
    (hok : ∀ c ∈ st.repl.commands.filter (fun c => ids.contains c.id),
      cmdOk api lib mockEnabled c = true) :
    (runCommandIds api lib uuid mockEnabled ids st).1.trace =
      st.trace ++ (st.repl.commands.filter (fun c => ids.contains c.id)).map (·.yaml) ∧
    (runCommandIds api lib uuid mockEnabled ids st).2 = true ∧
    (∀ ids' : List String, (∀ i : String, i ∈ ids ↔ i ∈ ids') →
      runCommandIds api lib uuid mockEnabled ids' st =
        runCommandIds api lib uuid mockEnabled ids st) := by
  obtain ⟨h1, h2⟩ := go_ok_spec api lib uuid mockEnabled
    (st.repl.commands.filter (fun c => ids.contains c.id))
    { st with repl := (st.repl.commands.filter (fun c => ids.contains c.id)).foldl (fun r c => setCommandStatus c.id .pending r) st.repl }
    hok
  have hco : runCommandIds api lib uuid mockEnabled ids st =
      ((runCommandsGo api lib uuid mockEnabled
          (st.repl.commands.filter (fun c => ids.contains c.id)) false
          { st with repl := (st.repl.commands.filter (fun c => ids.contains c.id)).foldl (fun r c => setCommandStatus c.id .pending r) st.repl }).1,
       !(runCommandsGo api lib uuid mockEnabled
          (st.repl.commands.filter (fun c => ids.contains c.id)) false
          { st with repl := (st.repl.commands.filter (fun c => ids.contains c.id)).foldl (fun r c => setCommandStatus c.id .pending r) st.repl }).2) := rfl
  refine ⟨?_, ?_, ?_⟩
  · rw [hco]
    rw [h2]
  · rw [hco, h1]
    rfl
  · intro ids' hiff
    have hfeq : st.repl.commands.filter (fun c => ids'.contains c.id) =
        st.repl.commands.filter (fun c => ids.contains c.id) := by
      apply List.filter_congr
      intro c _
      simp only [List.elem_eq_mem]
      exact decide_eq_decide.mpr (hiff c.id).symm
    simp only [runCommandIds]
    rw [hfeq]

/-- C6 witness: ids given in reverse order still run in queue order. -/
theorem runCommandIds_correct_witness :
    (runCommandIds demoApiRejectB demoLib demoUuid false ["b", "a"] demoStX).1.trace =
      demoStX.trace ++ (demoStX.repl.commands.filter
        (fun c => (["b", "a"] : List String).contains c.id)).map (·.yaml) ∧
    (runCommandIds demoApiRejectB demoLib demoUuid false ["b", "a"] demoStX).2 = true ∧
    (∀ ids' : List String, (∀ i : String, i ∈ (["b", "a"] : List String) ↔ i ∈ ids') →
      runCommandIds demoApiRejectB demoLib demoUuid false ids' demoStX =
        runCommandIds demoApiRejectB demoLib demoUuid false ["b", "a"] demoStX) :=
  runCommandIds_correct demoApiRejectB demoLib demoUuid false ["b", "a"] demoStX (by decide)

/-- C1 (amended): for every successful execution of a command X with
mock-generation mode enabled and a well-formed capture response, the commands
built from the fetched capture records (one per record, status pre-set
`success`, fresh ids) are spliced into the queue starting at X's original
position — so they appear immediately BEFORE X, which ends up directly after
the block — and several records keep the same relative order as in the
response, with all pre-existing commands keeping theirs. -/
theorem runCommand_mock_splice (api : Api) (lib : YamlLib) (uuid : Nat → String)
    (command : ReplCommand) (st : St) (items : List CaptureItem) (i : Nat)
    (hok : api.run command.yaml = .ok ())
    (hraw : api.mockRaw = .ok items)
    (hrt : ∀ item ∈ items, lib.parse (lib.stringify (mockYaml item)) = some (mockYaml item))
    (hidx : st.repl.commands.findIdx? (fun c => c.id = command.id) = some i) :
    ∃ (st' : St) (mocks : List ReplCommand),
      runCommand api lib uuid true command st = (st', true) ∧
      st'.repl.commands =
        (setCommandStatus command.id .success st.repl).commands.take i ++ mocks ++
        (setCommandStatus command.id .success st.repl).commands.drop i ∧
      mocks.map (·.yaml) = items.map (fun item => lib.stringify (mockYaml item)) ∧
      (∀ c ∈ mocks, c.status = .success) ∧
      mocks.map (·.id) = (List.range items.length).map (fun j => uuid (st.ctr + j)) := by
  have hys : ∀ y ∈ items.map (fun item => lib.stringify (mockYaml item)),
      ∃ v, lib.parse y = some v ∧ docYamls lib v = [y] := by
    intro y hy
    obtain ⟨item, hitem, rfl⟩ := List.mem_map.mp hy
    exact ⟨mockYaml item, hrt item hitem, rfl⟩
  have hpa := parseAll_singletons lib uuid
    (items.map (fun item => lib.stringify (mockYaml item))) hys st.ctr
  have hrun : runCommand api lib uuid true command st =
      ({ repl := setCommandStatus command.id .success
            { commands := spliceMocks
                (setCommandStatus command.id .running st.repl).commands command.id
                ((buildPending uuid st.ctr
                  (items.map (fun item => lib.stringify (mockYaml item)))).1.map
                    (fun c => { c with status := ReplCommandStatus.success })) },
          errorMessage := st.errorMessage,
          ctr := st.ctr + (items.map (fun item => lib.stringify (mockYaml item))).length,
          trace := st.trace ++ [command.yaml],
          flushes := st.flushes }, true) := by
    simp only [runCommand, hok, if_pos, runGetMocks, hraw, hpa]
  refine ⟨_, (buildPending uuid st.ctr
      (items.map (fun item => lib.stringify (mockYaml item)))).1.map
        (fun c => { c with status := ReplCommandStatus.success }), hrun, ?_, ?_, ?_, ?_⟩
  · have hq1 : (setCommandStatus command.id .running st.repl).commands.findIdx?
        (fun c => c.id = command.id) = some i := by
      rw [findIdx?_setCommandStatus]
      exact hidx
    rw [spliceMocks_eq _ _ _ i hq1]
    simp only [setCommandStatus, List.map_append, List.map_take, List.map_drop, List.map_map]
    have hfun : ((fun c : ReplCommand =>
        if c.id = command.id then { c with status := ReplCommandStatus.success } else c) ∘
        (fun c : ReplCommand =>
          if c.id = command.id then { c with status := ReplCommandStatus.running } else c)) =
        (fun c : ReplCommand =>
          if c.id = command.id then { c with status := ReplCommandStatus.success } else c) := by
      funext c
      by_cases h : c.id = command.id <;> simp [Function.comp, h]
    have hmid : ((fun c : ReplCommand =>
        if c.id = command.id then { c with status := ReplCommandStatus.success } else c) ∘
        (fun c : ReplCommand => { c with status := ReplCommandStatus.success })) =
        (fun c : ReplCommand => ({ c with status := ReplCommandStatus.success } : ReplCommand)) := by
      funext c
      by_cases h : c.id = command.id <;> simp [Function.comp, h]
    rw [hfun, hmid]
  · rw [List.map_map]
    have : ((fun c : ReplCommand => c.yaml) ∘
        (fun c : ReplCommand => { c with status := ReplCommandStatus.success })) =
        fun c : ReplCommand => c.yaml := rfl
    rw [this, buildPending_yamls]
  · intro c hc
    obtain ⟨c0, _, rfl⟩ := List.mem_map.mp hc
    rfl
  · rw [List.map_map]
    have : ((fun c : ReplCommand => c.id) ∘
        (fun c : ReplCommand => { c with status := ReplCommandStatus.success })) =
        fun c : ReplCommand => c.id := rfl
    rw [this, buildPending_ids]
    simp [buildPending_length, List.length_map]

/-- C1 counterexample: with two capture records after running `demoX` in the
middle of `[a, x, b]`, the two mock commands land at ids positions 1 and 2 —
immediately BEFORE `x` — so the queue reads `[a, m1, m2, x, b]` and not
`[a, x, m1, m2, b]` as "immediately after X's original position" demands. -/
theorem runCommand_mock_splice_after_refuted :
    ((runCommand demoApiMocks demoLib demoUuid true demoX demoStX).1.repl.commands.map
        (fun c => (c.id, c.status)) =
      [("a", .success), ("uuid-0", .success), ("uuid-1", .success), ("x", .success),
        ("b", .pending)]) ∧
    ¬ ((runCommand demoApiMocks demoLib demoUuid true demoX demoStX).1.repl.commands.map
        (·.id) =
      ["a", "x", "uuid-0", "uuid-1", "b"]) := by
  constructor
  · rfl
  · intro h
    have hids : (runCommand demoApiMocks demoLib demoUuid true demoX demoStX).1.repl.commands.map
        (·.id) = ["a", "uuid-0", "uuid-1", "x", "b"] := rfl
    rw [hids] at h
    exact absurd h (by decide)

/-- C1 witness: the amended theorem applied to the concrete two-record run. -/
theorem runCommand_mock_splice_witness :
    ∃ (st' : St) (mocks : List ReplCommand),
      runCommand demoApiMocks demoLib demoUuid true demoX demoStX = (st', true) ∧
      st'.repl.commands =
        (setCommandStatus demoX.id .success demoStX.repl).commands.take 1 ++ mocks ++
        (setCommandStatus demoX.id .success demoStX.repl).commands.drop 1 ∧
      mocks.map (·.yaml) =
        [demoItem1, demoItem2].map (fun item => demoLib.stringify (mockYaml item)) ∧
      (∀ c ∈ mocks, c.status = .success) ∧
      mocks.map (·.id) =
        (List.range ([demoItem1, demoItem2] : List CaptureItem).length).map
          (fun j => demoUuid (demoStX.ctr + j)) :=
  runCommand_mock_splice demoApiMocks demoLib demoUuid demoX demoStX
    [demoItem1, demoItem2] 1 rfl rfl
    (by intro item hitem; fin_cases hitem <;> rfl) rfl

/-- C4 witness: a malformed capture payload after a successful run of `demoX`. -/
theorem runCommand_captureParseError_witness :
    runCommand demoApiBadMock demoLib demoUuid true demoX demoStX =
      ({ demoStX with
          repl := setCommandStatus demoX.id .success demoStX.repl,
          errorMessage := some "Error parsing API response",
          trace := demoStX.trace ++ [demoX.yaml] }, true) ∧
    (runCommand demoApiBadMock demoLib demoUuid true demoX demoStX).1.repl.commands.length =
      demoStX.repl.commands.length :=
  runCommand_captureParseError demoApiBadMock demoLib demoUuid demoX demoStX rfl rfl

/-! ### Persistence: JSON values, the restore reviver, and round-tripping

`JSON.stringify`/`JSON.parse` are modelled at the level of JSON values: the
text layer is the identity composition `parse ∘ stringify` of a standard JSON
library, so serialization becomes `encodeRepl` and `restoreRepl` operates on
the parsed value, with the reviver of lines 24–27 applied bottom-up exactly as
`JSON.parse(text, reviver)` does (each object member under its key, each array
element under its decimal-index key, finally the root under `""`). -/

/-- JSON values, as `JSON.parse` produces and `JSON.stringify` consumes. -/
inductive JVal where
  | jnull
  | jbool (b : Bool)
  | jnum (n : Int)
  | jstr (s : String)
  | jarr (elems : List JVal)
  | jobj (fields : List (String × JVal))

/-- JS falsiness of a parsed JSON value (the `!value` test of the reviver):
`null`, `false`, `0` and `""` are the falsy JSON values. -/
def falsy : JVal → Bool
  | .jnull => true
  | .jbool b => !b
  | .jnum n => n == 0
  | .jstr s => s == ""
  | _ => false

/-- The reviver of `restoreRepl` (lines 24–26): a falsy value stored under the
key `'command'` becomes an empty array; everything else is kept. -/
def reviver (key : String) (value : JVal) : JVal :=
  if key = "command" && falsy value then .jarr [] else value

mutual

/-- Bottom-up reviver traversal of `JSON.parse(text, reviver)` below the root:
children first, then the reviver on every member with its key. -/
def walk : JVal → JVal
  | .jarr elems => .jarr (walkElems 0 elems)
  | .jobj fields => .jobj (walkFields fields)
  | v => v

/-- Array elements are revived under their decimal index keys. -/
def walkElems (i : Nat) : List JVal → List JVal
  | [] => []
  | v :: vs => reviver (toString i) (walk v) :: walkElems (i + 1) vs

/-- Object members are revived under their own keys. -/
def walkFields : List (String × JVal) → List (String × JVal)
  | [] => []
  | (k, v) :: fs => (k, reviver k (walk v)) :: walkFields fs

end

/-- `JSON.parse(savedRepl, reviver)`: revive everything bottom-up, the root
last under the key `""`. -/
def jsonParseRevive (v : JVal) : JVal := reviver "" (walk v)

/-- The wire spelling of a status, as `JSON.stringify` writes the enum. -/
def statusToString : ReplCommandStatus → String
  | .pending => "pending"
  | .running => "running"
  | .success => "success"
  | .error => "error"
  | .canceled => "canceled"

/-- Reading a status back from its wire spelling. -/
def statusOfString : String → Option ReplCommandStatus
  | "pending" => some .pending
  | "running" => some .running
  | "success" => some .success
  | "error" => some .error
  | "canceled" => some .canceled
  | _ => none

/-- `JSON.stringify` of one command, as the persistence effect (line 38)
writes it. -/
def encodeCommand (c : ReplCommand) : JVal :=
  .jobj [("id", .jstr c.id), ("status", .jstr (statusToString c.status)),
    ("yaml", .jstr c.yaml)]

/-- `JSON.stringify(repl)` (line 38): the persisted shape of the queue. -/
def encodeRepl (r : Repl) : JVal :=
  .jobj [("commands", .jarr (r.commands.map encodeCommand))]

/-- `restoreRepl` (lines 21–28) on the parsed store value: `none` models an
absent (or empty, hence falsy) `localStorage` entry, which restores
`initialState`; otherwise the stored value is parsed with the reviver. -/
def restoreRepl (saved : Option JVal) : JVal :=
  match saved with
  | none => encodeRepl initialState
  | some v => jsonParseRevive v

/-- JS property access on a parsed JSON object. -/
def jLookup (fields : List (String × JVal)) (key : String) : Option JVal :=
  (fields.find? (fun p => p.1 = key)).map (·.2)

/-- Reading one command out of its restored JSON entry, as the consuming code
does by property access (`command.id`, `command.status`, `command.yaml`). -/
def decodeCommand : JVal → Option ReplCommand
  | .jobj fields =>
    match jLookup fields "id", jLookup fields "status", jLookup fields "yaml" with
    | some (.jstr id), some (.jstr st), some (.jstr y) =>
      (statusOfString st).map (fun s => ⟨id, s, y⟩)
    | _, _, _ => none
  | _ => none

/-- Reading a list of command entries. -/
def decodeAll : List JVal → Option (List ReplCommand)
  | [] => some []
  | v :: vs =>
    match decodeCommand v, decodeAll vs with
    | some c, some cs => some (c :: cs)
    | _, _ => none

/-- Reading the whole restored queue. -/
def decodeRepl : JVal → Option Repl
  | .jobj fields =>
    match jLookup fields "commands" with
    | some (.jarr elems) => (decodeAll elems).map Repl.mk
    | _ => none
  | _ => none

theorem reviver_ne (k : String) (v : JVal) (h : ¬(k = "command")) : reviver k v = v := by
  simp [reviver, h]

theorem reviver_not_falsy (k : String) (v : JVal) (h : falsy v = false) :
    reviver k v = v := by
  simp [reviver, h]

theorem walkElems_fixed :
    ∀ (elems : List JVal) (i : Nat),
      (∀ e ∈ elems, walk e = e ∧ falsy e = false) → walkElems i elems = elems := by
  intro elems
  induction elems with
  | nil => intro i _; rfl
  | cons v vs ih =>
    intro i h
    obtain ⟨hw, hf⟩ := h v (by simp)
    rw [walkElems, hw, reviver_not_falsy _ _ hf, ih (i + 1) (fun e he => h e (by simp [he]))]

theorem walk_encodeCommand (c : ReplCommand) : walk (encodeCommand c) = encodeCommand c := by
  simp only [encodeCommand, walk, walkFields]
  rw [reviver_ne _ _ (by decide), reviver_ne _ _ (by decide), reviver_ne _ _ (by decide)]

theorem walk_encodeRepl (r : Repl) : walk (encodeRepl r) = encodeRepl r := by
  simp only [encodeRepl, walk, walkFields]
  rw [walkElems_fixed (r.commands.map encodeCommand) 0
    (by
      intro e he
      obtain ⟨c, _, rfl⟩ := List.mem_map.mp he
      exact ⟨walk_encodeCommand c, rfl⟩),
    reviver_ne _ _ (by decide)]

theorem statusOfString_statusToString (s : ReplCommandStatus) :
    statusOfString (statusToString s) = some s := by
  cases s <;> rfl

theorem decodeCommand_encodeCommand (c : ReplCommand) :
    decodeCommand (encodeCommand c) = some c := by
  obtain ⟨id, st, y⟩ := c
  cases st <;> rfl

theorem decodeAll_encode (cs : List ReplCommand) :
    decodeAll (cs.map encodeCommand) = some cs := by
  induction cs with
  | nil => rfl
  | cons c cs ih =>
    simp only [List.map_cons, decodeAll, decodeCommand_encodeCommand, ih]

/-- C9: serializing any queue state to the persistence store and restoring
from that stored value (the reviver included) yields an equal command
sequence: same length, each command's id, payload and status preserved. -/
theorem restore_roundtrip (r : Repl) :
    decodeRepl (restoreRepl (some (encodeRepl r))) = some r := by
  have h1 : restoreRepl (some (encodeRepl r)) = encodeRepl r := by
    simp only [restoreRepl, jsonParseRevive, walk_encodeRepl]
    exact reviver_not_falsy _ _ rfl
  rw [h1]
  obtain ⟨cs⟩ := r
  show (decodeAll (cs.map encodeCommand)).map Repl.mk = some (Repl.mk cs)
  rw [decodeAll_encode]
  rfl

/-- Object members with keys other than `'command'` and string values pass the
reviver unchanged. -/
theorem walkFields_str (fs : List (String × String))
    (hpk : ∀ p ∈ fs, p.1 ≠ "command") :
    walkFields (fs.map (fun p => (p.1, JVal.jstr p.2))) =
      fs.map (fun p => (p.1, JVal.jstr p.2)) := by
  induction fs with
  | nil => rfl
  | cons p ps ih =>
    simp only [List.map_cons, walkFields, walk]
    rw [reviver_ne _ _ (hpk p (by simp)), ih (fun q hq => hpk q (by simp [hq]))]

/-- C5 (amended): restore does not normalize anything in the serialized queue
shape — a command entry stored without its `yaml` payload is restored
unchanged, the payload still missing rather than set to an empty payload
(restore itself still succeeds: the reviver only rewrites a falsy value under
the key `'command'`, which the serialized shape never contains); and when no
stored value is present the queue is restored as empty. -/
theorem restoreRepl_missing_payload (fss : List (List (String × String)))
    (hk : ∀ fs ∈ fss, ∀ p ∈ fs, p.1 ≠ "command") :
    restoreRepl (some (.jobj [("commands",
      .jarr (fss.map (fun fs => .jobj (fs.map (fun p => (p.1, .jstr p.2))))))])) =
      .jobj [("commands",
        .jarr (fss.map (fun fs => .jobj (fs.map (fun p => (p.1, .jstr p.2))))))] ∧
    restoreRepl none = encodeRepl { commands := [] } := by
  constructor
  · have helems : walkElems 0
        (fss.map (fun fs => JVal.jobj (fs.map (fun p => (p.1, JVal.jstr p.2))))) =
        fss.map (fun fs => JVal.jobj (fs.map (fun p => (p.1, JVal.jstr p.2)))) := by
      apply walkElems_fixed
      intro e he
      obtain ⟨fs, hfs, rfl⟩ := List.mem_map.mp he
      refine ⟨?_, rfl⟩
      simp only [walk]
      rw [walkFields_str fs (fun p hp => hk fs hfs p hp)]
    simp only [restoreRepl, jsonParseRevive, walk, walkFields]
    rw [helems, reviver_ne _ _ (by decide), reviver_ne _ _ (by decide)]
  · rfl

/-- C5 counterexample: a stored command entry with no payload field is
restored exactly as stored — the payload stays missing, not normalized to an
empty payload. -/
theorem restoreRepl_normalize_refuted :
    restoreRepl (some (.jobj [("commands", .jarr [.jobj [("id", .jstr "a"),
        ("status", .jstr "pending")]])])) =
      .jobj [("commands", .jarr [.jobj [("id", .jstr "a"),
        ("status", .jstr "pending")]])] ∧
    jLookup [("id", JVal.jstr "a"), ("status", JVal.jstr "pending")] "yaml" = none ∧
    ¬(restoreRepl (some (.jobj [("commands", .jarr [.jobj [("id", .jstr "a"),
        ("status", .jstr "pending")]])])) =
      .jobj [("commands", .jarr [.jobj [("id", .jstr "a"), ("status", .jstr "pending"),
        ("yaml", .jstr "")]])]) := by
  refine ⟨rfl, rfl, ?_⟩
  intro h
  have hlen := congrArg (fun v => match v with
    | JVal.jobj (("commands", JVal.jarr (JVal.jobj fs :: _)) :: _) => fs.length
    | _ => 0) h
  exact absurd hlen (by decide)

/-- C5 witness: the amended theorem at the very store value of the
counterexample (one entry, payload missing). -/
theorem restoreRepl_missing_payload_witness :
    restoreRepl (some (.jobj [("commands", .jarr [.jobj [("id", .jstr "a"),
        ("status", .jstr "pending")]])])) =
      .jobj [("commands", .jarr [.jobj [("id", .jstr "a"),
        ("status", .jstr "pending")]])] ∧
    restoreRepl none = encodeRepl { commands := [] } :=
  restoreRepl_missing_payload [[("id", "a"), ("status", "pending")]] (by decide)

end Maestro
